import Mathlib

/-!
Verification of the tab container of `floem` (`src/views/tab.rs`) against its
natural-language specification.

The Rust source is shallowly embedded:
* `Tab` mirrors the `Tab` struct (the opaque `view_fn`, `PhantomData` and
  `AppContext` fields carry no reconciliation state and are not modelled;
  the construction callback enters the model as an explicit function
  argument where the code calls it).
* child slots (`Vec<Option<(V, ScopeDisposer)>>`) become
  `List (Option (V × D))` for an abstract disposer type `D`;
* side-effecting traversals (`layout`, `compute_layout`, `paint`, the
  `request_layout` calls of `update`) are embedded by their call traces:
  the list of children / style writes / layout requests they perform, in
  order;
* the keyed diff engine `diff` and the reconciler `apply_diff` live in
  `src/views/mod.rs`, which is not among the provided sources; they are
  modelled from the specification (see `specDiff` and `applyDiff`).
-/

namespace FloemTab

/-- Node identity (the `Id` handle of `src/id.rs`), modelled as a natural
number: the claims only use it as an opaque, equality-comparable handle. -/
abbrev Id := Nat

/-- Change flags returned by `View::update`; the tab view only ever produces
`ChangeFlags::empty()` and `ChangeFlags::LAYOUT`. -/
inductive ChangeFlags where
  | empty
  | LAYOUT
deriving DecidableEq

/-- Display style values written by `Tab::layout`
(`taffy::style::Display::None` / `Display::Flex`). -/
inductive Display where
  | hidden
  | flex
deriving DecidableEq

/-- Entry of the `added` list of an edit script (`DiffOpAdd { at, view }`):
a target index and the item payload moved out of the source sequence.
The Rust field `at` is a reserved word in Lean and is rendered `at_`. -/
structure DiffOpAdd (α : Type) where
  at_ : Nat
  view : Option α
deriving DecidableEq

/-- Entry of the `removed` list of an edit script: the previous index of the
removed key. -/
structure DiffOpRemove where
  at_ : Nat
deriving DecidableEq

/-- Entry of the `moved` list of an edit script: previous index and new
index of a surviving key.  The Rust field names `from`/`to` are reserved
words in Lean and are rendered `from_`/`to_`. -/
structure DiffOpMove where
  from_ : Nat
  to_ : Nat
deriving DecidableEq

/-- Edit script (`Diff`): three ordered lists of removals, moves and
additions.  `{}` is `Diff::default()`: all three lists empty. -/
structure Diff (α : Type) where
  removed : List DiffOpRemove := []
  moved : List DiffOpMove := []
  added : List (DiffOpAdd α) := []

/-- First-run branch of the sequence effect in `tab` (src/views/tab.rs
lines 70-79): with no previous hash run, start from `Diff::default()` and
push one `DiffOpAdd { at: i, view: Some(item) }` per enumerated item. -/
def firstRunDiff (items : List α) : Diff α :=
  items.enum.foldl (fun d p => { d with added := d.added ++ [⟨p.1, some p.2⟩] }) {}

variable {K : Type} [DecidableEq K]

/-- Modelled from the spec: the Keyed Diff Engine `diff` (spec 4.1) lives in
`src/views/mod.rs`, which is not among the provided sources; only its caller
`tab` is.  Following the spec's words: Removed entries are the previous
positions of keys absent from `current`, in ascending previous-index order;
Added entries are the current positions of keys absent from `previous`,
carrying the item (here the key itself) as payload, in ascending
target-index order; a key present in both sequences is classified Moved,
recording its previous and new positions, exactly when those positions
differ, and is otherwise kept in place and absent from the script; Moved
entries are emitted in ascending new-index order. -/
def specDiff (P C : List K) : Diff K where
  removed := P.enum.filterMap fun p => if p.2 ∈ C then none else some ⟨p.1⟩
  moved := C.enum.filterMap fun p =>
    if p.2 ∈ P ∧ List.indexOf p.2 P ≠ p.1 then some ⟨List.indexOf p.2 P, p.1⟩ else none
  added := C.enum.filterMap fun p => if p.2 ∈ P then none else some ⟨p.1, some p.2⟩

/-- Length needed so that every Added target and Moved destination of the
script denotes an existing slot: one past the largest such index. -/
def neededLen (d : Diff α) : Nat :=
  ((d.added.map fun (a : DiffOpAdd α) => a.at_ + 1)
    ++ (d.moved.map fun (m : DiffOpMove) => m.to_ + 1)).foldr max 0

/-- Grow a slot array with empty slots up to length `n` (the reconciler's
resize step, so every position referenced by the script exists). -/
def padTo (n : Nat) (slots : List (Option α)) : List (Option α) :=
  slots ++ List.replicate (n - slots.length) none

/-- Removal pass of the reconciler: empty the slot at each recorded
previous position (disposal of the removed child is a side effect outside
the slot-array model). -/
def removePhase (d : Diff α) (l : List (Option α)) : List (Option α) :=
  d.removed.foldl (fun l op => l.set op.at_ none) l

/-- Move pass, reading half: for every Moved entry, read the surviving item
out of its previous position, keyed by its destination. -/
def takeItems (d : Diff α) (l : List (Option α)) : List (Nat × Option α) :=
  d.moved.map fun op => (op.to_, l.getD op.from_ none)

/-- Move pass, vacating half: empty every Moved entry's source slot. -/
def vacatePhase (d : Diff α) (l : List (Option α)) : List (Option α) :=
  d.moved.foldl (fun l op => l.set op.from_ none) l

/-- Move pass, writing half: put each taken item at its destination. -/
def placePhase (ws : List (Nat × Option α)) (l : List (Option α)) : List (Option α) :=
  ws.foldl (fun l w => l.set w.1 w.2) l

/-- Addition pass of the reconciler: write each Added payload (in the code,
the freshly constructed child) at its target position. -/
def addPhase (d : Diff α) (l : List (Option α)) : List (Option α) :=
  d.added.foldl (fun l op => l.set op.at_ op.view) l

/-- Intermediate state of the reconciler: the slot array grown with empty
slots so that every position the script mentions exists, after the Removed
entries have been replayed (see `applyDiff`). -/
def prepared (d : Diff α) (slots : List (Option α)) : List (Option α) :=
  removePhase d (padTo (max slots.length (neededLen d)) slots)

/-- Modelled from the spec: the Reconciler `apply_diff` (spec 4.2) lives in
`src/views/mod.rs`, which is not among the provided sources.  The slot
array is first grown with empty slots so that every position the script
mentions exists; the Removed entries are replayed (each empties the slot at
its previous position — `prepared` is the state after these first two
steps), then the Moved entries (every source slot is read and vacated, then
every destination written, so that recorded positions keep their meaning
throughout the batch), then the Added entries (each writes its payload at
its target position); finally the empty slots are discarded, which realises
the index shift left behind by removals. -/
def applyDiff (d : Diff α) (slots : List (Option α)) : List (Option α) :=
  (addPhase d (placePhase (takeItems d (prepared d slots))
    (vacatePhase d (prepared d slots)))).filter fun s => s.isSome

/-- Key sequence of a slot array: the content of its non-empty slots, in
order. -/
def slotKeys (l : List (Option α)) : List α := l.filterMap id

/-- State payloads of the tab view (`enum TabState<T>`): a boxed edit
script, or a new active index. -/
inductive TabState (T : Type) where
  | diff : Diff T → TabState T
  | active : Nat → TabState T

/-- Payload delivered to `Tab::update` as `Box<dyn Any>`: either a value of
the tab's own `TabState<T>` type, or a payload of any other type, on which
the downcast in `Tab::update` fails. -/
inductive Payload (T : Type) where
  | tabState : TabState T → Payload T
  | other : Payload T

/-- State of the `Tab` view (`struct Tab` in src/views/tab.rs): its node
identity, the active index, and the child slot array
`Vec<Option<(V, ScopeDisposer)>>` with an abstract disposer type `D`. -/
structure Tab (V D : Type) where
  id : Id
  active : Nat
  children : List (Option (V × D))

/-- Construction of the tab container (`tab`, src/views/tab.rs lines
89-96): after registering its two reactive effects the constructor returns
the record with active index `0` and an empty child vector. -/
def tab (id : Id) : Tab V D := { id := id, active := 0, children := [] }

/-- Lookup `Tab::child` (src/views/tab.rs lines 107-117): linear search
(`find`) for a non-empty slot whose view has the requested identity;
`viewId` stands for the child's `View::id` method. -/
def Tab.child (viewId : V → Id) (t : Tab V D) (i : Id) : Option V :=
  match t.children.find? (fun s => match s with
      | some c => viewId c.1 == i
      | none => false) with
  | some (some c) => some c.1
  | _ => none

/-- Update entry point `Tab::update` (src/views/tab.rs lines 131-156).
`applyFn` stands for the external `apply_diff(cx.app_state, diff, children,
view_fn)` call (reconciler plus view construction callback), `viewId` for a
child's `View::id`.  The result is the new tab state, the returned change
flags, and the trace of `cx.request_layout` calls in order. -/
def Tab.update (applyFn : Diff T → List (Option (V × D)) → List (Option (V × D)))
    (viewId : V → Id) (t : Tab V D) (p : Payload T) :
    Tab V D × ChangeFlags × List Id :=
  match p with
  | .tabState st =>
    let t' : Tab V D :=
      match st with
      | .diff d => { t with children := applyFn d t.children }
      | .active a => { t with active := a }
    (t', ChangeFlags.LAYOUT,
      t.id :: (t'.children.filterMap fun s => s.map Prod.fst).map viewId)
  | .other => (t, ChangeFlags.empty, [])

/-- Layout traversal `Tab::layout` (src/views/tab.rs lines 158-179),
embedded as its trace: for every non-empty slot, in slot order, the pair of
the slot index and the display value written to that child's style before
its `layout_main` call (`Display::None` when the index is not the active
one, `Display::Flex` otherwise). -/
def Tab.layout (t : Tab V D) : List (Nat × Display) :=
  t.children.enum.filterMap fun p =>
    p.2.map fun _ => (p.1, if p.1 ≠ t.active then Display.hidden else Display.flex)

/-- Final-layout traversal `Tab::compute_layout` (src/views/tab.rs lines
181-187), embedded as the trace of children on which `compute_layout_main`
is invoked, in order. -/
def Tab.compute_layout (t : Tab V D) : List V :=
  t.children.filterMap fun s => s.map Prod.fst

/-- Event entry point `Tab::event` (src/views/tab.rs lines 189-200):
`self.children.get_mut(self.active)` and the nested `Some(Some(..))`
pattern become a match on `t.children[t.active]?`; `eventMain c` stands for
`c.event_main(cx, id_path, event)` for the ambient context, id path and
event. -/
def Tab.event (eventMain : V → Bool) (t : Tab V D) : Bool :=
  match t.children[t.active]? with
  | some (some c) => eventMain c.1
  | _ => false

/-- Paint traversal `Tab::paint` (src/views/tab.rs lines 202-206), embedded
as the trace of children on which `paint_main` is invoked. -/
def Tab.paint (t : Tab V D) : List V :=
  match t.children[t.active]? with
  | some (some c) => [c.1]
  | _ => []

lemma firstRunDiff_foldl_added (l : List (Nat × α)) (d : Diff α) :
    l.foldl (fun d p => { d with added := d.added ++ [⟨p.1, some p.2⟩] }) d =
      { d with added := d.added ++ l.map fun p => (⟨p.1, some p.2⟩ : DiffOpAdd α) } := by
  induction l generalizing d with
  | nil => simp
  | cons x l ih => simp [ih, List.append_assoc]

/-- C9: a freshly constructed Tab has active index 0 and an empty children
vector, so event and paint traversals target slot 0 and, while no children
exist, do nothing; there is no distinguished "no active child yet" state. -/
theorem tab_initial_state {V D : Type} (i : Id) (eventMain : V → Bool) :
    (tab i : Tab V D).active = 0 ∧ (tab i : Tab V D).children = [] ∧
    Tab.event eventMain (tab i : Tab V D) = false ∧
    Tab.paint (tab i : Tab V D) = [] :=
  ⟨rfl, rfl, rfl, rfl⟩

/-- C3: a payload whose type does not match `TabState<T>` makes
`Tab::update` a no-op: empty change flags, unchanged tab state (active
index and children included), and no layout request. -/
theorem tab_update_mismatch_noop {V D T : Type}
    (applyFn : Diff T → List (Option (V × D)) → List (Option (V × D)))
    (viewId : V → Id) (t : Tab V D) :
    Tab.update applyFn viewId t Payload.other = (t, ChangeFlags.empty, []) := rfl

/-- C4: an Active-Index payload carrying `n` makes `Tab::update` store `n`
as the active index, request re-layout of the node (returning the LAYOUT
flag and issuing a layout request for its own identity), and leave every
entry of the children slot array unchanged. -/
theorem tab_update_active_stores_index {V D T : Type}
    (applyFn : Diff T → List (Option (V × D)) → List (Option (V × D)))
    (viewId : V → Id) (t : Tab V D) (n : Nat) :
    (Tab.update applyFn viewId t (Payload.tabState (TabState.active n))).1.active = n ∧
    (Tab.update applyFn viewId t (Payload.tabState (TabState.active n))).1.children
      = t.children ∧
    (Tab.update applyFn viewId t (Payload.tabState (TabState.active n))).2.1
      = ChangeFlags.LAYOUT ∧
    t.id ∈ (Tab.update applyFn viewId t (Payload.tabState (TabState.active n))).2.2 := by
  refine ⟨rfl, rfl, rfl, ?_⟩
  simp [Tab.update]

/-- C10: for every recognized `TabState` payload — the Diff branch as well
as an Active-Index payload, even one equal to the stored index —
`Tab::update` performs no change detection: it returns LAYOUT and requests
re-layout of the node itself and then of every current non-empty child. -/
theorem tab_update_recognized_always_layout {V D T : Type}
    (applyFn : Diff T → List (Option (V × D)) → List (Option (V × D)))
    (viewId : V → Id) (t : Tab V D) (st : TabState T) :
    (Tab.update applyFn viewId t (Payload.tabState st)).2.1 = ChangeFlags.LAYOUT ∧
    (Tab.update applyFn viewId t (Payload.tabState st)).2.2 =
      t.id :: ((Tab.update applyFn viewId t (Payload.tabState st)).1.children.filterMap
        fun s => s.map Prod.fst).map viewId := by
  cases st <;> exact ⟨rfl, rfl⟩

/-- C6: the compute-final-layout traversal propagates to every non-empty
child slot, in order, unconditionally — independently of the active index
value. -/
theorem tab_compute_layout_all_children {V D : Type} (t : Tab V D) :
    Tab.compute_layout t = (t.children.filterMap id).map Prod.fst ∧
    ∀ a, Tab.compute_layout { t with active := a } = Tab.compute_layout t := by
  refine ⟨?_, fun a => rfl⟩
  simp [Tab.compute_layout, List.map_filterMap]

/-- C2: the event traversal forwards the event only to the child slot at
the active index and returns its result, and the paint traversal paints
only that child; when no slot exists at the active index (out of range, or
the slot is empty) the event is not handled and nothing is painted —
without defaulting to child 0. -/
theorem tab_event_paint_active_only {V D : Type} (t : Tab V D) (eventMain : V → Bool) :
    (∀ c : V × D, t.children[t.active]? = some (some c) →
        Tab.event eventMain t = eventMain c.1 ∧ Tab.paint t = [c.1]) ∧
    ((t.children[t.active]?).join = none →
        Tab.event eventMain t = false ∧ Tab.paint t = []) := by
  constructor
  · intro c h
    simp [Tab.event, Tab.paint, h]
  · intro h
    rcases hx : t.children[t.active]? with _ | s
    · simp [Tab.event, Tab.paint, hx]
    · cases s with
      | none => simp [Tab.event, Tab.paint, hx]
      | some c => rw [hx] at h; simp at h

/-- Witness for C2: a tab with active index 1 over two occupied slots
forwards to the second child; a tab whose active index is out of range
paints nothing. -/
theorem tab_event_paint_active_only_witness :
    Tab.event (fun _ => true)
      ({ id := 0, active := 1, children := [some (5, ()), some (7, ())] } : Tab Nat Unit)
      = true ∧
    Tab.paint
      ({ id := 0, active := 3, children := [some (5, ())] } : Tab Nat Unit) = [] :=
  ⟨((tab_event_paint_active_only
      ({ id := 0, active := 1, children := [some (5, ()), some (7, ())] } : Tab Nat Unit)
      (fun _ => true)).1 (7, ()) rfl).1,
    ((tab_event_paint_active_only
      ({ id := 0, active := 3, children := [some (5, ())] } : Tab Nat Unit)
      (fun _ => true)).2 rfl).2⟩

/-- C8: child lookup is a linear search over the slots: it returns a child
view whose identity is the requested one when some non-empty slot holds
such a view, and `none` exactly when no non-empty slot does (empty slots
never match). -/
theorem tab_child_linear_search {V D : Type} (viewId : V → Id) (t : Tab V D) (i : Id) :
    (∀ v, Tab.child viewId t i = some v → viewId v = i ∧ ∃ d, some (v, d) ∈ t.children) ∧
    (Tab.child viewId t i = none ↔ ∀ v d, some (v, d) ∈ t.children → viewId v ≠ i) := by
  rcases hf : t.children.find? (fun s => match s with
      | some c => viewId c.1 == i
      | none => false) with _ | s
  · have hall := List.find?_eq_none.mp hf
    constructor
    · intro v hv
      simp only [Tab.child, hf] at hv
      exact Option.noConfusion hv
    · simp only [Tab.child, hf, true_iff]
      intro v d hmem hvi
      exact hall _ hmem (by simp [hvi])
  · have hmem := List.mem_of_find?_eq_some hf
    have hpred := List.find?_some hf
    cases s with
    | none => simp at hpred
    | some c =>
      have hci : viewId c.1 = i := by simpa using hpred
      constructor
      · intro v hv
        simp only [Tab.child, hf] at hv
        obtain rfl : c.1 = v := by simpa using hv
        exact ⟨hci, c.2, by simpa using hmem⟩
      · simp only [Tab.child, hf]
        constructor
        · intro h; simp at h
        · intro h
          exact absurd hci (h c.1 c.2 (by simpa using hmem))

lemma enum_pairwise_fst_lt {β : Type} (l : List β) :
    l.enum.Pairwise (fun a b => a.1 < b.1) := by
  have h := List.pairwise_lt_range l.length
  rw [← List.enum_map_fst] at h
  exact List.pairwise_map.mp h

/-- C5: the layout traversal visits exactly the non-empty child slots, in
slot order (strictly increasing indices), and writes display `None` to a
child precisely when its slot index differs from the active index, `Flex`
otherwise — so when the active index is out of range every child is
hidden. -/
theorem tab_layout_visibility {V D : Type} (t : Tab V D) :
    (∀ i d, (i, d) ∈ Tab.layout t ↔
        ((∃ c, t.children[i]? = some (some c)) ∧
          d = if i ≠ t.active then Display.hidden else Display.flex)) ∧
    (Tab.layout t).Pairwise (fun a b => a.1 < b.1) := by
  constructor
  · intro i d
    constructor
    · intro hmem
      rw [Tab.layout, List.mem_filterMap] at hmem
      obtain ⟨p, hp, hf⟩ := hmem
      rw [Option.map_eq_some'] at hf
      obtain ⟨c, hc, heq⟩ := hf
      have hi : p.1 = i := congrArg Prod.fst heq
      have hd : (if p.1 ≠ t.active then Display.hidden else Display.flex) = d :=
        congrArg Prod.snd heq
      have hg := List.mem_enum_iff_getElem?.mp hp
      subst hi
      exact ⟨⟨c, by rw [hg, hc]⟩, by rw [← hd]⟩
    · rintro ⟨⟨c, hc⟩, hd⟩
      rw [Tab.layout, List.mem_filterMap]
      refine ⟨(i, some c), List.mem_enum_iff_getElem?.mpr hc, ?_⟩
      simp [hd]
  · refine List.Pairwise.filterMap _ ?_ (enum_pairwise_fst_lt t.children)
    intro a a' hlt b hb b' hb'
    rw [Option.mem_def, Option.map_eq_some'] at hb hb'
    obtain ⟨c, _, rfl⟩ := hb
    obtain ⟨c', _, rfl⟩ := hb'
    exact hlt

/-- Witness for C5: in a tab with active index 0 and slots
`[occupied, empty, occupied]`, the layout trace contains slot 0 with
display Flex and slot 2 with display None. -/
theorem tab_layout_visibility_witness :
    ((0, Display.flex) ∈ Tab.layout
      ({ id := 0, active := 0, children := [some (5, ()), none, some (7, ())] }
        : Tab Nat Unit)) ∧
    ((2, Display.hidden) ∈ Tab.layout
      ({ id := 0, active := 0, children := [some (5, ()), none, some (7, ())] }
        : Tab Nat Unit)) :=
  ⟨((tab_layout_visibility _).1 0 Display.flex).mpr ⟨⟨(5, ()), rfl⟩, by decide⟩,
    ((tab_layout_visibility _).1 2 Display.hidden).mpr ⟨⟨(7, ()), rfl⟩, by decide⟩⟩

/-- C7: on the first run (no previous hash run) the emitted edit script for
`n` current items consists of exactly `n` Added entries with target indices
`0` through `n-1` in ascending order, each carrying its item as payload,
and no Removed and no Moved entries. -/
theorem firstRunDiff_all_added {α : Type} (items : List α) :
    (firstRunDiff items).removed = [] ∧ (firstRunDiff items).moved = [] ∧
    (firstRunDiff items).added.map DiffOpAdd.at_ = List.range items.length ∧
    (firstRunDiff items).added.map DiffOpAdd.view = items.map some := by
  have h := firstRunDiff_foldl_added items.enum ({} : Diff α)
  rw [firstRunDiff, h]
  refine ⟨rfl, rfl, ?_, ?_⟩
  · show (items.enum.map fun p => (⟨p.1, some p.2⟩ : DiffOpAdd α)).map DiffOpAdd.at_
      = List.range items.length
    rw [List.map_map, ← List.enum_map_fst]
    rfl
  · show (items.enum.map fun p => (⟨p.1, some p.2⟩ : DiffOpAdd α)).map DiffOpAdd.view
      = items.map some
    rw [List.map_map]
    conv_rhs => rw [← List.enum_map_snd items, List.map_map]
    rfl

/-- Witness for C8: looking up identity 7 in a tab whose second slot holds
the view with identity 7 succeeds and the returned view has that identity;
an empty-slot-only tab yields `none` for every identity. -/
theorem tab_child_linear_search_witness :
    ((7 : Nat) = 7 ∧
      ∃ d, some (7, d) ∈ ([some (5, ()), some (7, ())] : List (Option (Nat × Unit)))) ∧
    (Tab.child (fun v => v)
      ({ id := 0, active := 0, children := [none] } : Tab Nat Unit) 7 = none) :=
  ⟨(tab_child_linear_search (fun v => v)
      ({ id := 0, active := 0, children := [some (5, ()), some (7, ())] } : Tab Nat Unit)
      7).1 7 rfl,
    (tab_child_linear_search (fun v => v) _ 7).2.mpr
      (by intro v d hmem; simp at hmem)⟩

lemma foldl_set_length {γ β : Type} (ws : List β) (idx : β → Nat) (val : β → γ)
    (l : List γ) :
    (ws.foldl (fun l w => l.set (idx w) (val w)) l).length = l.length := by
  induction ws generalizing l with
  | nil => rfl
  | cons w ws ih => rw [List.foldl_cons, ih, List.length_set]

lemma foldl_set_getElem?_not_written {γ β : Type} (ws : List β) (idx : β → Nat)
    (val : β → γ) (l : List γ) (j : Nat) (h : ∀ w ∈ ws, idx w ≠ j) :
    (ws.foldl (fun l w => l.set (idx w) (val w)) l)[j]? = l[j]? := by
  induction ws generalizing l with
  | nil => rfl
  | cons w ws ih =>
    rw [List.foldl_cons, ih _ (fun w hw => h w (List.mem_cons_of_mem _ hw)),
      List.getElem?_set_ne (h w (List.mem_cons_self w ws))]

lemma foldl_set_getElem?_written {γ β : Type} (ws : List β) (idx : β → Nat)
    (val : β → γ) (l : List γ) (w : β)
    (hdist : ws.Pairwise fun a b => idx a ≠ idx b) (hw : w ∈ ws)
    (hj : idx w < l.length) :
    (ws.foldl (fun l w => l.set (idx w) (val w)) l)[idx w]? = some (val w) := by
  induction ws generalizing l with
  | nil => exact absurd hw (List.not_mem_nil w)
  | cons a ws ih =>
    rw [List.pairwise_cons] at hdist
    rw [List.foldl_cons]
    rcases List.mem_cons.mp hw with rfl | hw'
    · rw [foldl_set_getElem?_not_written ws idx val _ (idx w)
        (fun b hb => (hdist.1 b hb).symm)]
      rw [List.getElem?_set]
      rw [if_pos rfl, if_pos hj]
    · exact ih _ hdist.2 hw' (by rw [List.length_set]; exact hj)

lemma foldl_set_none_preserved {γ β : Type} (ws : List β) (idx : β → Nat)
    (l : List (Option γ)) (j : Nat) (h : l[j]? = some none) :
    (ws.foldl (fun l w => l.set (idx w) none) l)[j]? = some none := by
  induction ws generalizing l with
  | nil => exact h
  | cons a ws ih =>
    rw [List.foldl_cons]
    apply ih
    rw [List.getElem?_set]
    by_cases he : idx a = j
    · rw [if_pos he]
      have hlt : j < l.length := by
        by_contra hlen
        rw [List.getElem?_eq_none (Nat.le_of_not_lt hlen)] at h
        exact Option.noConfusion h
      rw [if_pos (he ▸ hlt)]
    · rw [if_neg he]; exact h

lemma enum_pairwise_of_nodup {β : Type} {l : List β} (hl : l.Nodup) :
    l.enum.Pairwise fun a b => a.1 < b.1 ∧ a.2 ≠ b.2 := by
  refine (enum_pairwise_fst_lt l).and ?_
  have h := hl
  rw [← List.enum_map_snd l] at h
  exact List.pairwise_map.mp h

lemma mem_removed_specDiff {P C : List K} {r : DiffOpRemove} :
    r ∈ (specDiff P C).removed ↔ ∃ k, P[r.at_]? = some k ∧ k ∉ C := by
  simp only [specDiff, List.mem_filterMap, List.mem_enum_iff_getElem?]
  constructor
  · rintro ⟨p, hp, hif⟩
    by_cases hc : p.2 ∈ C
    · rw [if_pos hc] at hif; exact Option.noConfusion hif
    · rw [if_neg hc] at hif
      obtain rfl : (⟨p.1⟩ : DiffOpRemove) = r := Option.some.inj hif
      exact ⟨p.2, hp, hc⟩
  · rintro ⟨k, hk, hkc⟩
    exact ⟨(r.at_, k), hk, by rw [if_neg hkc]⟩

lemma mem_added_specDiff {P C : List K} {a : DiffOpAdd K} :
    a ∈ (specDiff P C).added ↔ ∃ k, C[a.at_]? = some k ∧ k ∉ P ∧ a.view = some k := by
  simp only [specDiff, List.mem_filterMap, List.mem_enum_iff_getElem?]
  constructor
  · rintro ⟨p, hp, hif⟩
    by_cases hc : p.2 ∈ P
    · rw [if_pos hc] at hif; exact Option.noConfusion hif
    · rw [if_neg hc] at hif
      obtain rfl : (⟨p.1, some p.2⟩ : DiffOpAdd K) = a := Option.some.inj hif
      exact ⟨p.2, hp, hc, rfl⟩
  · rintro ⟨k, hk, hkP, hview⟩
    refine ⟨(a.at_, k), hk, ?_⟩
    rw [if_neg hkP]
    cases a with
    | mk x v =>
      cases hview
      rfl

lemma mem_moved_specDiff {P C : List K} {m : DiffOpMove} :
    m ∈ (specDiff P C).moved ↔
      ∃ k, C[m.to_]? = some k ∧ k ∈ P ∧ List.indexOf k P ≠ m.to_ ∧
        m.from_ = List.indexOf k P := by
  simp only [specDiff, List.mem_filterMap, List.mem_enum_iff_getElem?]
  constructor
  · rintro ⟨p, hp, hif⟩
    by_cases hc : p.2 ∈ P ∧ List.indexOf p.2 P ≠ p.1
    · rw [if_pos hc] at hif
      obtain rfl : (⟨List.indexOf p.2 P, p.1⟩ : DiffOpMove) = m := Option.some.inj hif
      exact ⟨p.2, hp, hc.1, hc.2, rfl⟩
    · rw [if_neg hc] at hif; exact Option.noConfusion hif
  · rintro ⟨k, hk, hkP, hne, hfrom⟩
    refine ⟨(m.to_, k), hk, ?_⟩
    rw [if_pos ⟨hkP, hne⟩]
    cases m with
    | mk f t =>
      cases hfrom
      rfl

lemma pairwise_ne_removed (P C : List K) :
    (specDiff P C).removed.Pairwise fun a b => a.at_ ≠ b.at_ := by
  refine List.Pairwise.filterMap _ ?_ (enum_pairwise_fst_lt P)
  intro p q hlt r hr r' hr'
  rw [Option.mem_def] at hr hr'
  by_cases hc : p.2 ∈ C
  · rw [if_pos hc] at hr; exact Option.noConfusion hr
  · rw [if_neg hc] at hr
    by_cases hc' : q.2 ∈ C
    · rw [if_pos hc'] at hr'; exact Option.noConfusion hr'
    · rw [if_neg hc'] at hr'
      obtain rfl := Option.some.inj hr
      obtain rfl := Option.some.inj hr'
      exact Nat.ne_of_lt hlt

lemma pairwise_ne_added (P C : List K) :
    (specDiff P C).added.Pairwise fun a b => a.at_ ≠ b.at_ := by
  refine List.Pairwise.filterMap _ ?_ (enum_pairwise_fst_lt C)
  intro p q hlt r hr r' hr'
  rw [Option.mem_def] at hr hr'
  by_cases hc : p.2 ∈ P
  · rw [if_pos hc] at hr; exact Option.noConfusion hr
  · rw [if_neg hc] at hr
    by_cases hc' : q.2 ∈ P
    · rw [if_pos hc'] at hr'; exact Option.noConfusion hr'
    · rw [if_neg hc'] at hr'
      obtain rfl := Option.some.inj hr
      obtain rfl := Option.some.inj hr'
      exact Nat.ne_of_lt hlt

lemma pairwise_ne_moved_to (P C : List K) :
    (specDiff P C).moved.Pairwise fun a b => a.to_ ≠ b.to_ := by
  refine List.Pairwise.filterMap _ ?_ (enum_pairwise_fst_lt C)
  intro p q hlt r hr r' hr'
  rw [Option.mem_def] at hr hr'
  by_cases hc : p.2 ∈ P ∧ List.indexOf p.2 P ≠ p.1
  · rw [if_pos hc] at hr
    by_cases hc' : q.2 ∈ P ∧ List.indexOf q.2 P ≠ q.1
    · rw [if_pos hc'] at hr'
      obtain rfl := Option.some.inj hr
      obtain rfl := Option.some.inj hr'
      exact Nat.ne_of_lt hlt
    · rw [if_neg hc'] at hr'; exact Option.noConfusion hr'
  · rw [if_neg hc] at hr; exact Option.noConfusion hr

lemma pairwise_ne_moved_from (P C : List K) (hC : C.Nodup) :
    (specDiff P C).moved.Pairwise fun a b => a.from_ ≠ b.from_ := by
  refine List.Pairwise.filterMap _ ?_ (enum_pairwise_of_nodup hC)
  intro p q hpq r hr r' hr'
  rw [Option.mem_def] at hr hr'
  by_cases hc : p.2 ∈ P ∧ List.indexOf p.2 P ≠ p.1
  · rw [if_pos hc] at hr
    by_cases hc' : q.2 ∈ P ∧ List.indexOf q.2 P ≠ q.1
    · rw [if_pos hc'] at hr'
      obtain rfl := Option.some.inj hr
      obtain rfl := Option.some.inj hr'
      intro hEq
      have h1 : List.indexOf p.2 P < P.length := List.indexOf_lt_length.mpr hc.1
      have h2 : List.indexOf q.2 P < P.length := List.indexOf_lt_length.mpr hc'.1
      have e1 : P[List.indexOf p.2 P]? = some p.2 := by
        rw [List.getElem?_eq_getElem h1, List.getElem_indexOf h1]
      have e2 : P[List.indexOf q.2 P]? = some q.2 := by
        rw [List.getElem?_eq_getElem h2, List.getElem_indexOf h2]
      have hEq' : List.indexOf p.2 P = List.indexOf q.2 P := hEq
      rw [hEq'] at e1
      exact hpq.2 (Option.some.inj (e1.symm.trans e2))
    · rw [if_neg hc'] at hr'; exact Option.noConfusion hr'
  · rw [if_neg hc] at hr; exact Option.noConfusion hr

lemma padTo_length {β : Type} (n : Nat) (l : List (Option β)) (h : l.length ≤ n) :
    (padTo n l).length = n := by
  rw [padTo, List.length_append, List.length_replicate]
  omega

lemma padTo_map_some_getElem? (n : Nat) (P : List K) (hn : P.length ≤ n) (j : Nat) :
    (padTo n (P.map some))[j]? = if j < n then some P[j]? else none := by
  simp only [padTo, List.getElem?_append, List.length_map, List.getElem?_replicate]
  rcases Nat.lt_or_ge j P.length with hj | hj
  · rw [if_pos hj, if_pos (lt_of_lt_of_le hj hn), List.getElem?_map,
      List.getElem?_eq_getElem hj]
    rfl
  · rw [if_neg (Nat.not_lt.mpr hj), List.getElem?_eq_none hj]
    by_cases hjn : j < n
    · rw [if_pos (by omega), if_pos hjn]
    · rw [if_neg (by omega), if_neg hjn]

lemma le_foldr_max {x : Nat} {l : List Nat} (h : x ∈ l) : x ≤ l.foldr max 0 := by
  induction l with
  | nil => exact absurd h (List.not_mem_nil x)
  | cons a l ih =>
    rw [List.foldr_cons]
    rcases List.mem_cons.mp h with rfl | h'
    · exact Nat.le_max_left _ _
    · exact Nat.le_trans (ih h') (Nat.le_max_right _ _)

lemma neededLen_added {α : Type} {d : Diff α} {a : DiffOpAdd α} (h : a ∈ d.added) :
    a.at_ + 1 ≤ neededLen d :=
  le_foldr_max (List.mem_append_left _ (List.mem_map.mpr ⟨a, h, rfl⟩))

lemma neededLen_moved {α : Type} {d : Diff α} {m : DiffOpMove} (h : m ∈ d.moved) :
    m.to_ + 1 ≤ neededLen d :=
  le_foldr_max (List.mem_append_right _ (List.mem_map.mpr ⟨m, h, rfl⟩))

lemma length_le_bound (P C : List K) :
    C.length ≤ max P.length (neededLen (specDiff P C)) := by
  rcases Nat.eq_zero_or_pos C.length with h0 | hpos
  · rw [h0]; exact Nat.zero_le _
  · have hm : C.length - 1 < C.length := by omega
    have hCm : C[C.length - 1]? = some C[C.length - 1] := List.getElem?_eq_getElem hm
    by_cases hkP : C[C.length - 1] ∈ P
    · by_cases hidx : List.indexOf C[C.length - 1] P = C.length - 1
      · have h1 : List.indexOf C[C.length - 1] P < P.length :=
          List.indexOf_lt_length.mpr hkP
        have h2 : C.length ≤ P.length := by omega
        exact Nat.le_trans h2 (Nat.le_max_left _ _)
      · have hmem : (⟨List.indexOf C[C.length - 1] P, C.length - 1⟩ : DiffOpMove)
            ∈ (specDiff P C).moved :=
          mem_moved_specDiff.mpr ⟨C[C.length - 1], hCm, hkP, hidx, rfl⟩
        have h2 : C.length - 1 + 1 ≤ neededLen (specDiff P C) := neededLen_moved hmem
        have h3 : C.length ≤ neededLen (specDiff P C) := by omega
        exact Nat.le_trans h3 (Nat.le_max_right _ _)
    · have hmem : (⟨C.length - 1, some C[C.length - 1]⟩ : DiffOpAdd K)
          ∈ (specDiff P C).added :=
        mem_added_specDiff.mpr ⟨C[C.length - 1], hCm, hkP, rfl⟩
      have h2 : C.length - 1 + 1 ≤ neededLen (specDiff P C) := neededLen_added hmem
      have h3 : C.length ≤ neededLen (specDiff P C) := by omega
      exact Nat.le_trans h3 (Nat.le_max_right _ _)

lemma removePhase_length {α : Type} (d : Diff α) (l : List (Option α)) :
    (removePhase d l).length = l.length :=
  foldl_set_length d.removed (fun op => op.at_) (fun _ => none) l

lemma vacatePhase_length {α : Type} (d : Diff α) (l : List (Option α)) :
    (vacatePhase d l).length = l.length :=
  foldl_set_length d.moved (fun op => op.from_) (fun _ => none) l

lemma placePhase_length {α : Type} (ws : List (Nat × Option α)) (l : List (Option α)) :
    (placePhase ws l).length = l.length :=
  foldl_set_length ws Prod.fst Prod.snd l

lemma addPhase_length {α : Type} (d : Diff α) (l : List (Option α)) :
    (addPhase d l).length = l.length :=
  foldl_set_length d.added (fun op => op.at_) (fun op => op.view) l

lemma removePhase_getElem?_kept (P C : List K) {l : List (Option K)} {j : Nat} {k : K}
    (hjk : P[j]? = some k) (hkC : k ∈ C) :
    (removePhase (specDiff P C) l)[j]? = l[j]? := by
  refine foldl_set_getElem?_not_written (specDiff P C).removed (fun op => op.at_)
    (fun _ => none) l j ?_
  intro w hw hwj
  obtain ⟨k', hk', hk'C⟩ := mem_removed_specDiff.mp hw
  have hwj' : w.at_ = j := hwj
  rw [hwj', hjk] at hk'
  exact hk'C (Option.some.inj hk' ▸ hkC)

lemma removePhase_getElem?_removed (P C : List K) {l : List (Option K)} {j : Nat}
    {k : K} (hjk : P[j]? = some k) (hkC : k ∉ C) (hjl : j < l.length) :
    (removePhase (specDiff P C) l)[j]? = some none :=
  foldl_set_getElem?_written (specDiff P C).removed (fun op => op.at_)
    (fun _ => none) l ⟨j⟩ (pairwise_ne_removed P C)
    (mem_removed_specDiff.mpr ⟨k, hjk, hkC⟩) hjl

lemma removePhase_none_preserved {α : Type} (d : Diff α) {l : List (Option α)}
    {j : Nat} (h : l[j]? = some none) : (removePhase d l)[j]? = some none :=
  foldl_set_none_preserved d.removed (fun op => op.at_) l j h

lemma vacatePhase_none_preserved {α : Type} (d : Diff α) {l : List (Option α)}
    {j : Nat} (h : l[j]? = some none) : (vacatePhase d l)[j]? = some none :=
  foldl_set_none_preserved d.moved (fun op => op.from_) l j h

lemma vacatePhase_getElem?_not_written {α : Type} (d : Diff α) {l : List (Option α)}
    {j : Nat} (h : ∀ m ∈ d.moved, m.from_ ≠ j) : (vacatePhase d l)[j]? = l[j]? :=
  foldl_set_getElem?_not_written d.moved (fun op => op.from_) (fun _ => none) l j h

lemma vacatePhase_getElem?_vacated (P C : List K) (hC : C.Nodup)
    {l : List (Option K)} {m : DiffOpMove} (hm : m ∈ (specDiff P C).moved)
    (hjl : m.from_ < l.length) :
    (vacatePhase (specDiff P C) l)[m.from_]? = some none :=
  foldl_set_getElem?_written (specDiff P C).moved (fun op => op.from_) (fun _ => none)
    l m (pairwise_ne_moved_from P C hC) hm hjl

lemma placePhase_getElem?_not_written {α : Type} (ws : List (Nat × Option α))
    {l : List (Option α)} {j : Nat} (h : ∀ w ∈ ws, w.1 ≠ j) :
    (placePhase ws l)[j]? = l[j]? :=
  foldl_set_getElem?_not_written ws Prod.fst Prod.snd l j h

lemma placePhase_getElem?_written {α : Type} (ws : List (Nat × Option α))
    {l : List (Option α)} {w : Nat × Option α}
    (hdist : ws.Pairwise fun a b => a.1 ≠ b.1) (hw : w ∈ ws) (hj : w.1 < l.length) :
    (placePhase ws l)[w.1]? = some w.2 :=
  foldl_set_getElem?_written ws Prod.fst Prod.snd l w hdist hw hj

lemma addPhase_getElem?_not_written {α : Type} (d : Diff α) {l : List (Option α)}
    {j : Nat} (h : ∀ a ∈ d.added, a.at_ ≠ j) : (addPhase d l)[j]? = l[j]? :=
  foldl_set_getElem?_not_written d.added (fun op => op.at_) (fun op => op.view) l j h

lemma addPhase_getElem?_written {α : Type} (d : Diff α) {l : List (Option α)}
    {a : DiffOpAdd α} (hdist : d.added.Pairwise fun x y => x.at_ ≠ y.at_)
    (ha : a ∈ d.added) (hj : a.at_ < l.length) :
    (addPhase d l)[a.at_]? = some a.view :=
  foldl_set_getElem?_written d.added (fun op => op.at_) (fun op => op.view) l a
    hdist ha hj

lemma prepared_length (P C : List K) :
    (prepared (specDiff P C) (P.map some)).length
      = max (P.map some).length (neededLen (specDiff P C)) := by
  unfold prepared
  rw [removePhase_length, padTo_length _ _ (Nat.le_max_left _ _)]

lemma prepared_kept (P C : List K) {i : Nat} {k : K} (hik : P[i]? = some k)
    (hkC : k ∈ C) : (prepared (specDiff P C) (P.map some))[i]? = some (some k) := by
  unfold prepared
  rw [removePhase_getElem?_kept P C hik hkC,
    padTo_map_some_getElem? _ _ (by rw [List.length_map]; exact Nat.le_max_left _ _) i]
  have hiP : i < P.length := (List.getElem?_eq_some.mp hik).1
  rw [if_pos (by rw [List.length_map]; omega), hik]

lemma prepared_removed (P C : List K) {i : Nat} {k : K} (hik : P[i]? = some k)
    (hkC : k ∉ C) : (prepared (specDiff P C) (P.map some))[i]? = some none := by
  unfold prepared
  apply removePhase_getElem?_removed P C hik hkC
  have hiP : i < P.length := (List.getElem?_eq_some.mp hik).1
  rw [padTo_length _ _ (Nat.le_max_left _ _), List.length_map]
  omega

lemma prepared_pad (P C : List K) {i : Nat} (hiP : P.length ≤ i)
    (hin : i < (prepared (specDiff P C) (P.map some)).length) :
    (prepared (specDiff P C) (P.map some))[i]? = some none := by
  rw [prepared_length] at hin
  unfold prepared
  apply removePhase_none_preserved
  rw [padTo_map_some_getElem? _ _ (by rw [List.length_map]; exact Nat.le_max_left _ _) i,
    if_pos (by rw [List.length_map] at hin ⊢; omega), List.getElem?_eq_none hiP]

lemma reconciled_getElem? (P C : List K) (hP : P.Nodup) (hC : C.Nodup) {j : Nat}
    (hj : j < (prepared (specDiff P C) (P.map some)).length) :
    (addPhase (specDiff P C)
      (placePhase (takeItems (specDiff P C) (prepared (specDiff P C) (P.map some)))
        (vacatePhase (specDiff P C) (prepared (specDiff P C) (P.map some)))))[j]?
      = some C[j]? := by
  rcases Nat.lt_or_ge j C.length with hjC | hjC
  · obtain ⟨k, hCj⟩ : ∃ k, C[j]? = some k := ⟨C[j], List.getElem?_eq_getElem hjC⟩
    rw [hCj]
    have hkC : k ∈ C := by
      obtain ⟨hh, he⟩ := List.getElem?_eq_some.mp hCj
      exact he ▸ List.getElem_mem hh
    by_cases hkP : k ∈ P
    · have h1 : List.indexOf k P < P.length := List.indexOf_lt_length.mpr hkP
      have hPidx : P[List.indexOf k P]? = some k := by
        rw [List.getElem?_eq_getElem h1, List.getElem_indexOf h1]
      have hadd : ∀ a ∈ (specDiff P C).added, a.at_ ≠ j := by
        intro a ha haj
        obtain ⟨k', hk', hk'P, _⟩ := mem_added_specDiff.mp ha
        rw [haj, hCj] at hk'
        exact hk'P ((Option.some.inj hk').symm ▸ hkP)
      rw [addPhase_getElem?_not_written _ hadd]
      by_cases hidx : List.indexOf k P = j
      · have hPj : P[j]? = some k := by rw [← hidx]; exact hPidx
        have hplace : ∀ w ∈ takeItems (specDiff P C)
            (prepared (specDiff P C) (P.map some)), w.1 ≠ j := by
          intro w hw hwj
          unfold takeItems at hw
          obtain ⟨m, hm, rfl⟩ := List.mem_map.mp hw
          obtain ⟨k', hk', hk'P, hne, _⟩ := mem_moved_specDiff.mp hm
          have hmtj : m.to_ = j := hwj
          rw [hmtj, hCj] at hk'
          obtain rfl : k' = k := (Option.some.inj hk').symm
          exact hne (by rw [hmtj]; exact hidx)
        have hvacw : ∀ m ∈ (specDiff P C).moved, m.from_ ≠ j := by
          intro m hm hmj
          obtain ⟨k', hk', hk'P, hne, hfrom⟩ := mem_moved_specDiff.mp hm
          have h2 : List.indexOf k' P < P.length := List.indexOf_lt_length.mpr hk'P
          have e1 : P[List.indexOf k' P]? = some k' := by
            rw [List.getElem?_eq_getElem h2, List.getElem_indexOf h2]
          have hEq : List.indexOf k' P = j := by rw [← hfrom]; exact hmj
          rw [hEq, hPj] at e1
          obtain rfl : k' = k := (Option.some.inj e1).symm
          have hmt : m.to_ = j := by
            have hlt : m.to_ < C.length := (List.getElem?_eq_some.mp hk').1
            exact List.getElem?_inj hlt hC (hk'.trans hCj.symm)
          exact hne (by rw [hmt]; exact hEq)
        rw [placePhase_getElem?_not_written _ hplace,
          vacatePhase_getElem?_not_written _ hvacw]
        exact prepared_kept P C hPj hkC
      · have hprval : (prepared (specDiff P C) (P.map some)).getD (List.indexOf k P)
            none = some k := by
          rw [List.getD_eq_getElem?_getD, prepared_kept P C hPidx hkC]
          rfl
        have hm : (⟨List.indexOf k P, j⟩ : DiffOpMove) ∈ (specDiff P C).moved :=
          mem_moved_specDiff.mpr ⟨k, hCj, hkP, hidx, rfl⟩
        have hwmem : (j, (prepared (specDiff P C) (P.map some)).getD
            (List.indexOf k P) none) ∈ takeItems (specDiff P C)
              (prepared (specDiff P C) (P.map some)) := by
          unfold takeItems
          exact List.mem_map.mpr ⟨⟨List.indexOf k P, j⟩, hm, rfl⟩
        have hdist : (takeItems (specDiff P C)
            (prepared (specDiff P C) (P.map some))).Pairwise
              fun a b => a.1 ≠ b.1 := by
          unfold takeItems
          exact List.pairwise_map.mpr (pairwise_ne_moved_to P C)
        have hb : (j, (prepared (specDiff P C) (P.map some)).getD
            (List.indexOf k P) none).1 < (vacatePhase (specDiff P C)
              (prepared (specDiff P C) (P.map some))).length := by
          rw [vacatePhase_length]
          exact hj
        have hw := placePhase_getElem?_written _ hdist hwmem hb
        rw [hprval] at hw
        exact hw
    · have hamem : (⟨j, some k⟩ : DiffOpAdd K) ∈ (specDiff P C).added :=
        mem_added_specDiff.mpr ⟨k, hCj, hkP, rfl⟩
      have hb : (⟨j, some k⟩ : DiffOpAdd K).at_ < (placePhase
          (takeItems (specDiff P C) (prepared (specDiff P C) (P.map some)))
          (vacatePhase (specDiff P C)
            (prepared (specDiff P C) (P.map some)))).length := by
        rw [placePhase_length, vacatePhase_length]
        exact hj
      exact addPhase_getElem?_written _ (pairwise_ne_added P C) hamem hb
  · rw [List.getElem?_eq_none hjC]
    have hadd : ∀ a ∈ (specDiff P C).added, a.at_ ≠ j := by
      intro a ha haj
      obtain ⟨k', hk', _, _⟩ := mem_added_specDiff.mp ha
      rw [haj, List.getElem?_eq_none hjC] at hk'
      exact Option.noConfusion hk'
    have hplace : ∀ w ∈ takeItems (specDiff P C)
        (prepared (specDiff P C) (P.map some)), w.1 ≠ j := by
      intro w hw hwj
      unfold takeItems at hw
      obtain ⟨m, hm, rfl⟩ := List.mem_map.mp hw
      obtain ⟨k', hk', _, _, _⟩ := mem_moved_specDiff.mp hm
      have hmtj : m.to_ = j := hwj
      rw [hmtj, List.getElem?_eq_none hjC] at hk'
      exact Option.noConfusion hk'
    rw [addPhase_getElem?_not_written _ hadd,
      placePhase_getElem?_not_written _ hplace]
    rcases Nat.lt_or_ge j P.length with hjP | hjP
    · obtain ⟨p, hPj⟩ : ∃ p, P[j]? = some p := ⟨P[j], List.getElem?_eq_getElem hjP⟩
      by_cases hpC : p ∈ C
      · have hpP : p ∈ P := by
          obtain ⟨hh, he⟩ := List.getElem?_eq_some.mp hPj
          exact he ▸ List.getElem_mem hh
        have hidxP : List.indexOf p P = j := by
          obtain ⟨hh, he⟩ := List.getElem?_eq_some.mp hPj
          rw [← he]
          exact List.indexOf_getElem hP j hh
        have hj'lt : List.indexOf p C < C.length := List.indexOf_lt_length.mpr hpC
        have hCj' : C[List.indexOf p C]? = some p := by
          rw [List.getElem?_eq_getElem hj'lt, List.getElem_indexOf hj'lt]
        have hne : List.indexOf p P ≠ List.indexOf p C := by rw [hidxP]; omega
        have hm : (⟨j, List.indexOf p C⟩ : DiffOpMove) ∈ (specDiff P C).moved :=
          mem_moved_specDiff.mpr ⟨p, hCj', hpP, hne, hidxP.symm⟩
        have hb : (⟨j, List.indexOf p C⟩ : DiffOpMove).from_
            < (prepared (specDiff P C) (P.map some)).length := hj
        exact vacatePhase_getElem?_vacated P C hC hm hb
      · exact vacatePhase_none_preserved _ (prepared_removed P C hPj hpC)
    · exact vacatePhase_none_preserved _ (prepared_pad P C hjP hj)

/-- C1: for every pair of ordered sequences of unique keys `P` and `C`
(empty sequences included), replaying the edit script `specDiff P C` — its
Removed, then Moved, then Added entries — against a slot array whose key
order equals `P` yields a slot array whose key order equals `C` exactly. -/
theorem specDiff_applyDiff_roundtrip (P C : List K) (hP : P.Nodup) (hC : C.Nodup) :
    slotKeys (applyDiff (specDiff P C) (P.map some)) = C ∧
    applyDiff (specDiff P C) (P.map some) = C.map some := by
  have hCn : C.length ≤ (prepared (specDiff P C) (P.map some)).length := by
    rw [prepared_length, List.length_map]
    exact length_le_bound P C
  have hlen : (addPhase (specDiff P C)
      (placePhase (takeItems (specDiff P C) (prepared (specDiff P C) (P.map some)))
        (vacatePhase (specDiff P C) (prepared (specDiff P C) (P.map some))))).length
      = (prepared (specDiff P C) (P.map some)).length := by
    rw [addPhase_length, placePhase_length, vacatePhase_length]
  have hfin : addPhase (specDiff P C)
      (placePhase (takeItems (specDiff P C) (prepared (specDiff P C) (P.map some)))
        (vacatePhase (specDiff P C) (prepared (specDiff P C) (P.map some))))
      = C.map some ++ List.replicate
          ((prepared (specDiff P C) (P.map some)).length - C.length) none := by
    apply List.ext_getElem?
    intro i
    rcases Nat.lt_or_ge i (prepared (specDiff P C) (P.map some)).length with hi | hi
    · rw [reconciled_getElem? P C hP hC hi, List.getElem?_append]
      rcases Nat.lt_or_ge i C.length with hiC | hiC
      · rw [if_pos (by rw [List.length_map]; exact hiC), List.getElem?_map,
          List.getElem?_eq_getElem hiC]
        rfl
      · rw [if_neg (by rw [List.length_map]; omega), List.getElem?_replicate,
          List.length_map, if_pos (by omega), List.getElem?_eq_none hiC]
    · have h1 : (addPhase (specDiff P C)
          (placePhase (takeItems (specDiff P C)
            (prepared (specDiff P C) (P.map some)))
            (vacatePhase (specDiff P C)
              (prepared (specDiff P C) (P.map some))))).length ≤ i := by
        rw [hlen]; exact hi
      have h2 : (C.map some ++ List.replicate
          ((prepared (specDiff P C) (P.map some)).length - C.length)
          (none : Option K)).length ≤ i := by
        rw [List.length_append, List.length_map, List.length_replicate]
        omega
      rw [List.getElem?_eq_none h1, List.getElem?_eq_none h2]
  have hmain : applyDiff (specDiff P C) (P.map some) = C.map some := by
    unfold applyDiff
    rw [hfin, List.filter_append]
    have h1 : (C.map some).filter (fun s => s.isSome) = C.map some :=
      List.filter_eq_self.mpr (by
        intro a ha
        obtain ⟨x, _, rfl⟩ := List.mem_map.mp ha
        rfl)
    have h2 : (List.replicate
        ((prepared (specDiff P C) (P.map some)).length - C.length)
        (none : Option K)).filter (fun s => s.isSome) = [] :=
      List.filter_eq_nil_iff.mpr (by
        intro a ha
        rw [List.eq_of_mem_replicate ha]
        simp)
    rw [h1, h2, List.append_nil]
  refine ⟨?_, hmain⟩
  rw [hmain, slotKeys]
  simp

/-- Witness for C1: the scenario of spec 8 — previous keys `[1, 2, 3]`, new
keys `[3, 1, 4]` — replayed against the slot form of the previous sequence
yields the slot form of the new sequence. -/
theorem specDiff_applyDiff_roundtrip_witness :
    ([1, 2, 3] : List Nat).Nodup ∧ ([3, 1, 4] : List Nat).Nodup ∧
    slotKeys (applyDiff (specDiff [1, 2, 3] [3, 1, 4]) ([1, 2, 3].map some))
      = [3, 1, 4] :=
  ⟨by decide, by decide,
    (specDiff_applyDiff_roundtrip [1, 2, 3] [3, 1, 4] (by decide) (by decide)).1⟩

end FloemTab
